import Mathlib

/-!
Verification development for the hub agent's tunnel manager core and the
basic-auth access-control handler.

The tunnel package (Manager, close-aware session wrapper, connection proxy)
is embedded from its specification: the implementation file is not part of
the sources at hand, only its tests and the spec are.  The basic-auth
handler is embedded directly from `pkg/acp/basicauth/basic_auth.go`.
-/

namespace Tunnel

/-- Desired state supplied by the control plane: one endpoint per tunnel. -/
structure Endpoint where
  TunnelID : String
  BrokerEndpoint : String
  ClusterEndpoint : String
deriving DecidableEq, Repr

/-- Actual state owned by the Manager for one tunnel.  `Client` identifies
the close-aware multiplexed session established for this tunnel; sessions
are numbered by the order in which they were opened. -/
structure tunnel where
  BrokerEndpoint : String
  ClusterEndpoint : String
  Client : Nat
deriving DecidableEq, Repr

/-- Observable side effects of a reconciliation pass: opening a fresh
session to a broker for a tunnel ID, and closing an existing session. -/
inductive Event where
  | connect (tunnelID : String) (broker : String) (session : Nat)
  | closeSession (session : Nat)
deriving DecidableEq, Repr

/-- The Manager's state: the tunnel map (an association list keyed by
tunnel ID) together with the next fresh session number. -/
structure ManagerState where
  tunnels : List (String × tunnel)
  nextSession : Nat
deriving DecidableEq, Repr

/-- First-match lookup in an association list. -/
def alookup {β : Type} (l : List (String × β)) (k : String) : Option β :=
  match l with
  | [] => none
  | (k₁, v) :: rest => if k₁ = k then some v else alookup rest k

/-- Replace the entry for `k` in place, or append it when absent. -/
def upsert {β : Type} (k : String) (v : β) : List (String × β) → List (String × β)
  | [] => [(k, v)]
  | (k₁, v₁) :: rest => if k₁ = k then (k, v) :: rest else (k₁, v₁) :: upsert k v rest

/-- The keys of an association list, in order. -/
def keysA {β : Type} (l : List (String × β)) : List String :=
  l.map Prod.fst

/-- Boolean membership test on a list of tunnel IDs. -/
def memID (ids : List String) (k : String) : Bool :=
  match ids with
  | [] => false
  | i :: rest => if i = k then true else memID rest k

/-- Modelled from the spec: one step of the Manager's reconciliation
algorithm (§4.1 step 1) for a single desired endpoint `e`; the tunnel
manager implementation itself is not among the sources, only its tests.
The `dial` oracle says whether the Connector succeeds in establishing a
fresh session for a given tunnel ID and broker.  Look up the existing
tunnel under `e.TunnelID`: if absent, or present with a different stored
`BrokerEndpoint`, dial; on success close the previous session (if any)
and store the new tunnel built from `e` with a fresh session number, on
failure leave the state untouched.  If present with the same
`BrokerEndpoint`, update only `ClusterEndpoint` in place. -/
def reconcileEndpoint (dial : String → String → Bool) (s : ManagerState) (e : Endpoint) :
    ManagerState × List Event :=
  match alookup s.tunnels e.TunnelID with
  | some t =>
    if t.BrokerEndpoint = e.BrokerEndpoint then
      ({ tunnels := upsert e.TunnelID { t with ClusterEndpoint := e.ClusterEndpoint } s.tunnels,
         nextSession := s.nextSession }, [])
    else if dial e.TunnelID e.BrokerEndpoint then
      ({ tunnels := upsert e.TunnelID
           ⟨e.BrokerEndpoint, e.ClusterEndpoint, s.nextSession⟩ s.tunnels,
         nextSession := s.nextSession + 1 },
       [Event.connect e.TunnelID e.BrokerEndpoint s.nextSession, Event.closeSession t.Client])
    else (s, [])
  | none =>
    if dial e.TunnelID e.BrokerEndpoint then
      ({ tunnels := upsert e.TunnelID
           ⟨e.BrokerEndpoint, e.ClusterEndpoint, s.nextSession⟩ s.tunnels,
         nextSession := s.nextSession + 1 },
       [Event.connect e.TunnelID e.BrokerEndpoint s.nextSession])
    else (s, [])

/-- Modelled from the spec: phase 1 of a reconciliation pass processes
every desired endpoint in order, accumulating the emitted events. -/
def reconcileAll (dial : String → String → Bool) (s : ManagerState) :
    List Endpoint → ManagerState × List Event
  | [] => (s, [])
  | e :: rest =>
    let step := reconcileEndpoint dial s e
    let next := reconcileAll dial step.1 rest
    (next.1, step.2 ++ next.2)

/-- Modelled from the spec: a full reconciliation pass (§4.1) — phase 1
over the desired list, then phase 2 removes every owned key absent from
the desired ID set, closing its session. -/
def updateTunnels (dial : String → String → Bool) (s : ManagerState)
    (desired : List Endpoint) : ManagerState × List Event :=
  let phase1 := reconcileAll dial s desired
  let ids := desired.map Endpoint.TunnelID
  ({ tunnels := phase1.1.tunnels.filter (fun p => memID ids p.1),
     nextSession := phase1.1.nextSession },
   phase1.2 ++ (phase1.1.tunnels.filter (fun p => !memID ids p.1)).map
     (fun p => Event.closeSession p.2.Client))

/-- One poll of the control-plane client: either the desired endpoint
list, or a failure. -/
inductive Poll where
  | success (desired : List Endpoint)
  | failure (msg : String)
deriving DecidableEq, Repr

/-- Modelled from the spec: one iteration of the Manager's run loop — a
successful poll reconciles, a failed poll is logged and skipped without
mutating existing tunnels. -/
def runCycle (dial : String → String → Bool) (s : ManagerState) (p : Poll) :
    ManagerState × List Event :=
  match p with
  | Poll.success desired => updateTunnels dial s desired
  | Poll.failure _ => (s, [])

/-- Modelled from the spec: the run loop processes every polling interval
in its trace; no failure terminates it early. -/
def runCycles (dial : String → String → Bool) (s : ManagerState) :
    List Poll → ManagerState × List Event
  | [] => (s, [])
  | p :: rest =>
    let step := runCycle dial s p
    let next := runCycles dial step.1 rest
    (next.1, step.2 ++ next.2)

/-- Modelled from the spec: on cancellation the Manager closes every
owned tunnel's session and empties the map. -/
def shutdown (s : ManagerState) : ManagerState × List Event :=
  ({ tunnels := [], nextSession := s.nextSession },
   s.tunnels.map (fun p => Event.closeSession p.2.Client))

/-- Modelled from the spec: `Run` processes the trace of polls until the
context is cancelled, then shuts down every owned tunnel and returns. -/
def run (dial : String → String → Bool) (s : ManagerState) (polls : List Poll) :
    ManagerState × List Event :=
  let loop := runCycles dial s polls
  let fin := shutdown loop.1
  (fin.1, loop.2 ++ fin.2)

/-- `NewManager` starts with an empty tunnel map. -/
def NewManager : ManagerState := { tunnels := [], nextSession := 0 }

/-- Well-formedness of a Manager state: tunnel IDs are unique, session
numbers are pairwise distinct, and every session number is below the
fresh-session counter. -/
def WF (s : ManagerState) : Prop :=
  (keysA s.tunnels).Nodup ∧
  (s.tunnels.map (fun p => p.2.Client)).Nodup ∧
  ∀ p ∈ s.tunnels, p.2.Client < s.nextSession

/-- An endpoint the reconciliation step has nothing left to do for: its
entry already mirrors the endpoint, or establishing it is impossible and
retried later. -/
def Stable (dial : String → String → Bool) (s : ManagerState) (e : Endpoint) : Prop :=
  match alookup s.tunnels e.TunnelID with
  | none => dial e.TunnelID e.BrokerEndpoint = false
  | some t =>
    (t.BrokerEndpoint = e.BrokerEndpoint ∧ t.ClusterEndpoint = e.ClusterEndpoint) ∨
    (t.BrokerEndpoint ≠ e.BrokerEndpoint ∧ dial e.TunnelID e.BrokerEndpoint = false)

/-- A connector that always succeeds. -/
def dialAlways : String → String → Bool := fun _ _ => true

/-- A connector that always fails. -/
def dialNever : String → String → Bool := fun _ _ => false

/-- The desired endpoint list of Scenario A. -/
def scenarioADesired : List Endpoint :=
  [⟨"current-tunnel", "ws://brokerA", ":P"⟩,
   ⟨"new-tunnel", "ws://brokerB", ":P"⟩,
   ⟨"stable-tunnel", "ws://brokerC", ":P"⟩]

/-- A stale tunnel entry as set up before Scenario A. -/
def staleTunnel (session : Nat) : tunnel :=
  ⟨"old-endpoint", "old-endpoint", session⟩

/-- The initial owned map of Scenario A: two stale entries. -/
def scenarioAInit : ManagerState :=
  { tunnels := [("current-tunnel-new-broker", staleTunnel 0),
                ("unused-tunnel", staleTunnel 1)],
    nextSession := 2 }

/-- An owned map holding one live tunnel for "stable-tunnel" whose broker
matches Scenario A's desired endpoint but whose cluster endpoint differs. -/
def frameInit : ManagerState :=
  { tunnels := [("stable-tunnel", ⟨"ws://brokerC", ":old", 0⟩)], nextSession := 1 }

/-- Modelled from the spec: the close-aware session wrapper
(`closeAwareListener`), whose implementation is not among the sources.
`closed` is the lock-guarded flag; `underlyingCloses` counts how many
times the wrapped session's own close has been invoked. -/
structure closeAwareListener where
  closed : Bool
  underlyingCloses : Nat
deriving DecidableEq, Repr

/-- A freshly wrapped session: not closed, underlying resource never
released. -/
def newCloseAware : closeAwareListener := { closed := false, underlyingCloses := 0 }

/-- Modelled from the spec: `Close` on the wrapper.  If already closed,
return success without touching the underlying session; otherwise record
closed and close the underlying session once (the underlying close is
assumed to succeed).  The returned flag is what the caller observes:
`true` means success. -/
def closeAwareClose (l : closeAwareListener) : closeAwareListener × Bool :=
  if l.closed then (l, true)
  else ({ closed := true, underlyingCloses := l.underlyingCloses + 1 }, true)

/-- A sequence of `n` `Close` calls, collecting each caller's observed
result. -/
def closeN : Nat → closeAwareListener → closeAwareListener × List Bool
  | 0, l => (l, [])
  | n + 1, l =>
    let step := closeAwareClose l
    let next := closeN n step.1
    (next.1, step.2 :: next.2)

/-- Modelled from the spec: the environment a `proxy` call runs in — the
outcome of dialing the target address, and the outcome of each of the two
concurrent copy directions once dialing succeeded (`none` means that copy
ended in clean EOF). -/
structure ProxyWorld where
  dialOk : Bool
  dialErr : String
  upErr : Option String
  downErr : Option String
deriving DecidableEq, Repr

/-- What a `proxy` call did: whether it read from or wrote to the stream,
the bytes written back to the stream, how many concurrent copy workers it
started and how many it waited for, and its returned error. -/
structure ProxyResult where
  streamTouched : Bool
  sentBack : List Nat
  spawned : Nat
  joined : Nat
  err : Option String
deriving DecidableEq, Repr

/-- The first error observed among the two copy directions. -/
def firstErr (a b : Option String) : Option String :=
  match a with
  | some e => some e
  | none => b

/-- Modelled from the spec: `proxy(stream, targetAddress)` (§4.3), whose
implementation is not among the sources.  `target` maps the bytes
delivered to the target to the bytes the target sends back.  A failed
dial returns the error immediately, without touching the stream and
without spawning any copy worker.  A successful dial runs the two copy
directions, waits for both, and returns the first error observed, or
`none` when both ended in clean EOF; on a fully clean run the stream
reads back exactly the target's response to its own bytes. -/
def proxy (w : ProxyWorld) (target : List Nat → List Nat) (streamIn : List Nat) :
    ProxyResult :=
  if w.dialOk then
    { streamTouched := true
      sentBack := if w.upErr = none ∧ w.downErr = none then target streamIn else []
      spawned := 2
      joined := 2
      err := firstErr w.upErr w.downErr }
  else
    { streamTouched := false, sentBack := [], spawned := 0, joined := 0,
      err := some w.dialErr }

/-- The byte string "hello". -/
def helloBytes : List Nat := [104, 101, 108, 108, 111]

end Tunnel

namespace BasicAuth

/-- A basic auth ACP Handler, from `pkg/acp/basicauth/basic_auth.go`: the
user-to-secret map and the response-shaping options. -/
structure Handler where
  users : List (String × String)
  forwardUsername : String
  stripAuthorization : Bool
  name : String

/-- `Handler.secretBasic`: the secret for a known user, the empty string
for an unknown one. -/
def secretBasic (h : Handler) (user : String) : String :=
  match Tunnel.alookup h.users user with
  | some secret => secret
  | none => ""

/-- The observable reply of `ServeHTTP`: the authentication challenge
(`RequireAuth`), or status 200 with the headers the handler set. -/
inductive HTTPReply where
  | challenge
  | ok200 (headers : List (String × String))
deriving DecidableEq, Repr

/-- The headers `ServeHTTP` sets on a 200 reply for `username`. -/
def okHeaders (h : Handler) (username : String) : List (String × String) :=
  (if h.forwardUsername ≠ "" then [(h.forwardUsername, username)] else []) ++
  (if h.stripAuthorization then [("Authorization", "")] else [])

/-- `Handler.ServeHTTP`: `creds` is the result of `req.BasicAuth()`
(`none` for a missing or malformed Authorization header), `check` models
`goauth.CheckSecret` comparing a password against a stored secret.  The
request is rejected with the challenge when credentials are absent, when
the looked-up secret is empty (unknown user), or when the check fails;
otherwise the handler sets its headers and replies 200. -/
def ServeHTTP (h : Handler) (check : String → String → Bool)
    (creds : Option (String × String)) : HTTPReply :=
  match creds with
  | none => HTTPReply.challenge
  | some (username, password) =>
    let secret := secretBasic h username
    if secret = "" ∨ ¬ check password secret then HTTPReply.challenge
    else HTTPReply.ok200 (okHeaders h username)

/-- Credentials that `ServeHTTP` accepts: present, for a user whose
stored secret is nonempty, passing the secret check. -/
def ValidCreds (h : Handler) (check : String → String → Bool)
    (creds : Option (String × String)) : Prop :=
  ∃ u p, creds = some (u, p) ∧ secretBasic h u ≠ "" ∧ check p (secretBasic h u) = true

/-- A concrete handler used to instantiate the basic-auth theorems. -/
def sampleHandler : Handler :=
  { users := [("admin", "s3cr3t")], forwardUsername := "", stripAuthorization := false,
    name := "acp" }

/-- A concrete secret check: plain string comparison. -/
def plainCheck : String → String → Bool := fun password secret => password = secret

end BasicAuth

namespace Tunnel

theorem alookup_cons {β : Type} (k₁ k : String) (v₁ : β) (rest : List (String × β)) :
    alookup ((k₁, v₁) :: rest) k = if k₁ = k then some v₁ else alookup rest k := rfl

theorem upsert_cons {β : Type} (k₁ k : String) (v₁ v : β) (rest : List (String × β)) :
    upsert k v ((k₁, v₁) :: rest) =
      if k₁ = k then (k, v) :: rest else (k₁, v₁) :: upsert k v rest := rfl

theorem keysA_cons {β : Type} (k₁ : String) (v₁ : β) (rest : List (String × β)) :
    keysA ((k₁, v₁) :: rest) = k₁ :: keysA rest := rfl

theorem memID_iff (ids : List String) (k : String) : memID ids k = true ↔ k ∈ ids := by
  induction ids with
  | nil => simp [memID]
  | cons i rest ih =>
    by_cases h : i = k
    · subst h
      simp [memID]
    · have hc : memID (i :: rest) k = memID rest k := by
        simp [memID, h]
      rw [hc, ih, List.mem_cons]
      constructor
      · exact Or.inr
      · rintro (rfl | hm)
        · exact absurd rfl h
        · exact hm

theorem alookup_upsert_eq {β : Type} (l : List (String × β)) (k : String) (v : β) :
    alookup (upsert k v l) k = some v := by
  induction l with
  | nil => simp [upsert, alookup]
  | cons p rest ih =>
    obtain ⟨k₁, v₁⟩ := p
    by_cases h : k₁ = k
    · rw [upsert_cons, if_pos h, alookup_cons, if_pos rfl]
    · rw [upsert_cons, if_neg h, alookup_cons, if_neg h, ih]

theorem alookup_upsert_ne {β : Type} (l : List (String × β)) (k j : String) (v : β)
    (h : k ≠ j) : alookup (upsert k v l) j = alookup l j := by
  induction l with
  | nil => simp [upsert, alookup, h]
  | cons p rest ih =>
    obtain ⟨k₁, v₁⟩ := p
    by_cases h₁ : k₁ = k
    · subst h₁
      rw [upsert_cons, if_pos rfl, alookup_cons, if_neg h, alookup_cons, if_neg h]
    · rw [upsert_cons, if_neg h₁, alookup_cons, alookup_cons, ih]

theorem upsert_self {β : Type} (l : List (String × β)) (k : String) (v : β)
    (h : alookup l k = some v) : upsert k v l = l := by
  induction l with
  | nil => simp [alookup] at h
  | cons p rest ih =>
    obtain ⟨k₁, v₁⟩ := p
    by_cases h₁ : k₁ = k
    · subst h₁
      rw [alookup_cons, if_pos rfl] at h
      injection h with h
      rw [upsert_cons, if_pos rfl, h]
    · rw [alookup_cons, if_neg h₁] at h
      rw [upsert_cons, if_neg h₁, ih h]

theorem mem_keys_upsert_of_mem {β : Type} (l : List (String × β)) (k j : String) (v : β)
    (h : j ∈ keysA l) : j ∈ keysA (upsert k v l) := by
  induction l with
  | nil => simp [keysA] at h
  | cons p rest ih =>
    obtain ⟨k₁, v₁⟩ := p
    rw [keysA_cons, List.mem_cons] at h
    by_cases h₁ : k₁ = k
    · subst h₁
      rw [upsert_cons, if_pos rfl, keysA_cons, List.mem_cons]
      rcases h with h | h
      · exact Or.inl h
      · exact Or.inr h
    · rw [upsert_cons, if_neg h₁, keysA_cons, List.mem_cons]
      rcases h with h | h
      · exact Or.inl h
      · exact Or.inr (ih h)

theorem mem_keys_upsert_self {β : Type} (l : List (String × β)) (k : String) (v : β) :
    k ∈ keysA (upsert k v l) := by
  induction l with
  | nil => simp [upsert, keysA]
  | cons p rest ih =>
    obtain ⟨k₁, v₁⟩ := p
    by_cases h₁ : k₁ = k
    · rw [upsert_cons, if_pos h₁, keysA_cons, List.mem_cons]
      exact Or.inl rfl
    · rw [upsert_cons, if_neg h₁, keysA_cons, List.mem_cons]
      exact Or.inr ih

theorem alookup_filter {β : Type} (l : List (String × β)) (pred : String → Bool)
    (k : String) (hk : pred k = true) :
    alookup (l.filter (fun p => pred p.1)) k = alookup l k := by
  induction l with
  | nil => simp
  | cons p rest ih =>
    obtain ⟨k₁, v₁⟩ := p
    by_cases h₁ : k₁ = k
    · subst h₁
      rw [List.filter_cons, if_pos (by simpa using hk), alookup_cons, if_pos rfl,
        alookup_cons, if_pos rfl]
    · by_cases hp : pred k₁ = true
      · rw [List.filter_cons, if_pos (by simpa using hp), alookup_cons, if_neg h₁,
          alookup_cons, if_neg h₁, ih]
      · rw [List.filter_cons, if_neg (by simpa using hp), ih, alookup_cons, if_neg h₁]

theorem mem_keys_filter {β : Type} (l : List (String × β)) (pred : String → Bool)
    (k : String) :
    k ∈ keysA (l.filter (fun p => pred p.1)) ↔ k ∈ keysA l ∧ pred k = true := by
  induction l with
  | nil => simp [keysA]
  | cons p rest ih =>
    obtain ⟨k₁, v₁⟩ := p
    by_cases hp : pred k₁ = true
    · rw [List.filter_cons, if_pos (by simpa using hp), keysA_cons, List.mem_cons,
        keysA_cons, List.mem_cons, ih]
      constructor
      · rintro (rfl | ⟨h, hk⟩)
        · exact ⟨Or.inl rfl, hp⟩
        · exact ⟨Or.inr h, hk⟩
      · rintro ⟨rfl | h, hk⟩
        · exact Or.inl rfl
        · exact Or.inr ⟨h, hk⟩
    · rw [List.filter_cons, if_neg (by simpa using hp), ih, keysA_cons, List.mem_cons]
      constructor
      · rintro ⟨h, hk⟩
        exact ⟨Or.inr h, hk⟩
      · rintro ⟨rfl | h, hk⟩
        · exact absurd hk hp
        · exact ⟨h, hk⟩

theorem alookup_mem {β : Type} (l : List (String × β)) (k : String) (v : β)
    (h : alookup l k = some v) : (k, v) ∈ l := by
  induction l with
  | nil => simp [alookup] at h
  | cons p rest ih =>
    obtain ⟨k₁, v₁⟩ := p
    by_cases h₁ : k₁ = k
    · subst h₁
      rw [alookup_cons, if_pos rfl] at h
      injection h with h
      rw [h]
      exact List.mem_cons_self _ _
    · rw [alookup_cons, if_neg h₁] at h
      exact List.mem_cons_of_mem _ (ih h)

theorem alookup_eq_none {β : Type} (l : List (String × β)) (k : String)
    (h : alookup l k = none) : k ∉ keysA l := by
  induction l with
  | nil => simp [keysA]
  | cons p rest ih =>
    obtain ⟨k₁, v₁⟩ := p
    by_cases h₁ : k₁ = k
    · rw [alookup_cons, if_pos h₁] at h
      exact absurd h (by simp)
    · rw [alookup_cons, if_neg h₁] at h
      rw [keysA_cons, List.mem_cons]
      rintro (rfl | hm)
      · exact h₁ rfl
      · exact ih h hm

theorem mem_upsert {β : Type} (l : List (String × β)) (k : String) (v : β)
    (p : String × β) (h : p ∈ upsert k v l) : p = (k, v) ∨ p ∈ l := by
  induction l with
  | nil =>
    simp [upsert] at h
    exact Or.inl h
  | cons q rest ih =>
    obtain ⟨k₁, v₁⟩ := q
    by_cases h₁ : k₁ = k
    · rw [upsert_cons, if_pos h₁, List.mem_cons] at h
      rcases h with h | h
      · exact Or.inl h
      · exact Or.inr (List.mem_cons_of_mem _ h)
    · rw [upsert_cons, if_neg h₁, List.mem_cons] at h
      rcases h with h | h
      · exact Or.inr (h ▸ List.mem_cons_self _ _)
      · rcases ih h with h | h
        · exact Or.inl h
        · exact Or.inr (List.mem_cons_of_mem _ h)

theorem upsert_append_of_none {β : Type} (l : List (String × β)) (k : String) (v : β)
    (h : alookup l k = none) : upsert k v l = l ++ [(k, v)] := by
  induction l with
  | nil => simp [upsert]
  | cons q rest ih =>
    obtain ⟨k₁, v₁⟩ := q
    by_cases h₁ : k₁ = k
    · rw [alookup_cons, if_pos h₁] at h
      exact absurd h (by simp)
    · rw [alookup_cons, if_neg h₁] at h
      rw [upsert_cons, if_neg h₁, ih h, List.cons_append]

theorem keysA_upsert_of_some {β : Type} (l : List (String × β)) (k : String) (v t : β)
    (h : alookup l k = some t) : keysA (upsert k v l) = keysA l := by
  induction l with
  | nil => simp [alookup] at h
  | cons q rest ih =>
    obtain ⟨k₁, v₁⟩ := q
    by_cases h₁ : k₁ = k
    · subst h₁
      rw [upsert_cons, if_pos rfl, keysA_cons, keysA_cons]
    · rw [alookup_cons, if_neg h₁] at h
      rw [upsert_cons, if_neg h₁, keysA_cons, keysA_cons, ih h]

theorem clients_upsert_nodup (l : List (String × tunnel)) (k : String) (v t : tunnel)
    (hnd : (l.map (fun p => p.2.Client)).Nodup) (h : alookup l k = some t)
    (hv : v.Client = t.Client ∨ v.Client ∉ l.map (fun p => p.2.Client)) :
    ((upsert k v l).map (fun p => p.2.Client)).Nodup := by
  induction l with
  | nil => simp [alookup] at h
  | cons q rest ih =>
    obtain ⟨k₁, v₁⟩ := q
    rw [List.map_cons, List.nodup_cons] at hnd
    obtain ⟨hn₁, hnrest⟩ := hnd
    by_cases h₁ : k₁ = k
    · subst h₁
      rw [alookup_cons, if_pos rfl] at h
      injection h with h
      subst h
      rw [upsert_cons, if_pos rfl, List.map_cons, List.nodup_cons]
      refine ⟨?_, hnrest⟩
      rcases hv with hv | hv
      · rw [hv]
        exact hn₁
      · rw [List.map_cons] at hv
        exact fun hm => hv (List.mem_cons_of_mem _ hm)
    · rw [alookup_cons, if_neg h₁] at h
      rw [upsert_cons, if_neg h₁, List.map_cons, List.nodup_cons]
      have hv₂ : v.Client = t.Client ∨ v.Client ∉ rest.map (fun p => p.2.Client) := by
        rcases hv with hv | hv
        · exact Or.inl hv
        · rw [List.map_cons] at hv
          exact Or.inr fun hm => hv (List.mem_cons_of_mem _ hm)
      refine ⟨?_, ih hnrest h hv₂⟩
      intro hm
      rcases List.mem_map.mp hm with ⟨p, hp, hpc⟩
      rcases mem_upsert rest k v p hp with rfl | hp
      · have htm : t.Client ∈ rest.map (fun q => q.2.Client) :=
          List.mem_map.mpr ⟨(k, t), alookup_mem rest k t h, rfl⟩
        rcases hv with hv | hv
        · rw [← hpc] at hn₁
          rw [hv] at hn₁
          exact hn₁ htm
        · rw [List.map_cons] at hv
          refine hv ?_
          rw [hpc]
          exact List.mem_cons_self _ _
      · exact hn₁ (hpc ▸ List.mem_map.mpr ⟨p, hp, rfl⟩)

theorem reconcileEndpoint_WF (dial : String → String → Bool) (s : ManagerState)
    (e : Endpoint) (h : WF s) : WF (reconcileEndpoint dial s e).1 := by
  obtain ⟨hk, hc, hb⟩ := h
  rcases hl : alookup s.tunnels e.TunnelID with _ | t
  · by_cases hd : dial e.TunnelID e.BrokerEndpoint = true
    · simp only [reconcileEndpoint, hl, hd, if_pos]
      have happ := upsert_append_of_none s.tunnels e.TunnelID
        ⟨e.BrokerEndpoint, e.ClusterEndpoint, s.nextSession⟩ hl
      have hns : s.nextSession ∉ s.tunnels.map (fun p => p.2.Client) := by
        intro hm
        rcases List.mem_map.mp hm with ⟨p, hp, hpc⟩
        exact absurd (hpc ▸ hb p hp) (lt_irrefl _)
      refine ⟨?_, ?_, ?_⟩
      · rw [happ]
        have : keysA (s.tunnels ++ [(e.TunnelID, (⟨e.BrokerEndpoint, e.ClusterEndpoint,
            s.nextSession⟩ : tunnel))]) = keysA s.tunnels ++ [e.TunnelID] := by
          simp [keysA]
        rw [this, List.nodup_append]
        exact ⟨hk, List.nodup_singleton _, by
          intro a ha hb₂
          simp only [List.mem_singleton] at hb₂
          subst hb₂
          exact alookup_eq_none s.tunnels e.TunnelID hl ha⟩
      · rw [happ, List.map_append, List.nodup_append]
        exact ⟨hc, List.nodup_singleton _, by
          intro a ha hb₂
          simp only [List.map_cons, List.map_nil, List.mem_singleton] at hb₂
          subst hb₂
          exact hns ha⟩
      · intro p hp
        rw [happ] at hp
        rcases List.mem_append.mp hp with hp | hp
        · exact Nat.lt_succ_of_lt (hb p hp)
        · simp only [List.mem_singleton] at hp
          subst hp
          exact Nat.lt_succ_self _
    · simp only [reconcileEndpoint, hl, if_neg hd]
      exact ⟨hk, hc, hb⟩
  · have htmem : (e.TunnelID, t) ∈ s.tunnels := alookup_mem _ _ _ hl
    by_cases hbe : t.BrokerEndpoint = e.BrokerEndpoint
    · simp only [reconcileEndpoint, hl, hbe, if_pos]
      refine ⟨?_, ?_, ?_⟩
      · rw [keysA_upsert_of_some s.tunnels e.TunnelID _ t hl]
        exact hk
      · exact clients_upsert_nodup s.tunnels e.TunnelID _ t hc hl (Or.inl rfl)
      · intro p hp
        rcases mem_upsert _ _ _ _ hp with rfl | hp
        · exact hb (e.TunnelID, t) htmem
        · exact hb p hp
    · by_cases hd : dial e.TunnelID e.BrokerEndpoint = true
      · simp only [reconcileEndpoint, hl, if_neg hbe, hd, if_pos]
        have hns : s.nextSession ∉ s.tunnels.map (fun p => p.2.Client) := by
          intro hm
          rcases List.mem_map.mp hm with ⟨p, hp, hpc⟩
          exact absurd (hpc ▸ hb p hp) (lt_irrefl _)
        refine ⟨?_, ?_, ?_⟩
        · rw [keysA_upsert_of_some s.tunnels e.TunnelID _ t hl]
          exact hk
        · exact clients_upsert_nodup s.tunnels e.TunnelID _ t hc hl (Or.inr hns)
        · intro p hp
          rcases mem_upsert _ _ _ _ hp with rfl | hp
          · exact Nat.lt_succ_self _
          · exact Nat.lt_succ_of_lt (hb p hp)
      · simp only [reconcileEndpoint, hl, if_neg hbe, if_neg hd]
        exact ⟨hk, hc, hb⟩

theorem reconcileAll_WF (dial : String → String → Bool) (D : List Endpoint) :
    ∀ s : ManagerState, WF s → WF (reconcileAll dial s D).1 := by
  induction D with
  | nil => exact fun s h => h
  | cons e rest ih =>
    intro s h
    exact ih _ (reconcileEndpoint_WF dial s e h)

theorem updateTunnels_WF (dial : String → String → Bool) (s : ManagerState)
    (D : List Endpoint) (h : WF s) : WF (updateTunnels dial s D).1 := by
  have h₁ := reconcileAll_WF dial D s h
  obtain ⟨hk, hc, hb⟩ := h₁
  refine ⟨?_, ?_, ?_⟩
  · exact hk.sublist (List.Sublist.map _ (List.filter_sublist _))
  · exact hc.sublist (List.Sublist.map _ (List.filter_sublist _))
  · intro p hp
    exact hb p (List.mem_of_mem_filter hp)

theorem reconcileEndpoint_alookup_other (dial : String → String → Bool)
    (s : ManagerState) (e : Endpoint) (k : String) (hne : e.TunnelID ≠ k) :
    alookup (reconcileEndpoint dial s e).1.tunnels k = alookup s.tunnels k := by
  rcases hl : alookup s.tunnels e.TunnelID with _ | t
  · by_cases hd : dial e.TunnelID e.BrokerEndpoint = true
    · simp only [reconcileEndpoint, hl, hd, if_pos]
      exact alookup_upsert_ne _ _ _ _ hne
    · simp only [reconcileEndpoint, hl, if_neg hd]
  · by_cases hbe : t.BrokerEndpoint = e.BrokerEndpoint
    · simp only [reconcileEndpoint, hl, hbe, if_pos]
      exact alookup_upsert_ne _ _ _ _ hne
    · by_cases hd : dial e.TunnelID e.BrokerEndpoint = true
      · simp only [reconcileEndpoint, hl, if_neg hbe, hd, if_pos]
        exact alookup_upsert_ne _ _ _ _ hne
      · simp only [reconcileEndpoint, hl, if_neg hbe, if_neg hd]

theorem reconcileAll_alookup_other (dial : String → String → Bool) (L : List Endpoint) :
    ∀ (s : ManagerState) (k : String), (∀ e ∈ L, e.TunnelID ≠ k) →
    alookup (reconcileAll dial s L).1.tunnels k = alookup s.tunnels k := by
  induction L with
  | nil => exact fun s k _ => rfl
  | cons e rest ih =>
    intro s k hne
    have h₁ := reconcileEndpoint_alookup_other dial s e k (hne e (List.mem_cons_self _ _))
    have h₂ := ih (reconcileEndpoint dial s e).1 k
      (fun e₁ he₁ => hne e₁ (List.mem_cons_of_mem _ he₁))
    calc alookup (reconcileAll dial s (e :: rest)).1.tunnels k
        = alookup (reconcileAll dial (reconcileEndpoint dial s e).1 rest).1.tunnels k := rfl
      _ = alookup (reconcileEndpoint dial s e).1.tunnels k := h₂
      _ = alookup s.tunnels k := h₁

theorem reconcileEndpoint_keys_mono (dial : String → String → Bool) (s : ManagerState)
    (e : Endpoint) (j : String) (h : j ∈ keysA s.tunnels) :
    j ∈ keysA (reconcileEndpoint dial s e).1.tunnels := by
  rcases hl : alookup s.tunnels e.TunnelID with _ | t
  · by_cases hd : dial e.TunnelID e.BrokerEndpoint = true
    · simp only [reconcileEndpoint, hl, hd, if_pos]
      exact mem_keys_upsert_of_mem _ _ _ _ h
    · simp only [reconcileEndpoint, hl, if_neg hd]
      exact h
  · by_cases hbe : t.BrokerEndpoint = e.BrokerEndpoint
    · simp only [reconcileEndpoint, hl, hbe, if_pos]
      exact mem_keys_upsert_of_mem _ _ _ _ h
    · by_cases hd : dial e.TunnelID e.BrokerEndpoint = true
      · simp only [reconcileEndpoint, hl, if_neg hbe, hd, if_pos]
        exact mem_keys_upsert_of_mem _ _ _ _ h
      · simp only [reconcileEndpoint, hl, if_neg hbe, if_neg hd]
        exact h

theorem reconcileEndpoint_keys_self (dial : String → String → Bool) (s : ManagerState)
    (e : Endpoint) (hd : dial e.TunnelID e.BrokerEndpoint = true) :
    e.TunnelID ∈ keysA (reconcileEndpoint dial s e).1.tunnels := by
  rcases hl : alookup s.tunnels e.TunnelID with _ | t
  · simp only [reconcileEndpoint, hl, hd, if_pos]
    exact mem_keys_upsert_self _ _ _
  · by_cases hbe : t.BrokerEndpoint = e.BrokerEndpoint
    · simp only [reconcileEndpoint, hl, hbe, if_pos]
      exact mem_keys_upsert_self _ _ _
    · simp only [reconcileEndpoint, hl, if_neg hbe, hd, if_pos]
      exact mem_keys_upsert_self _ _ _

theorem reconcileAll_keys_mono (dial : String → String → Bool) (D : List Endpoint) :
    ∀ (s : ManagerState) (j : String), j ∈ keysA s.tunnels →
    j ∈ keysA (reconcileAll dial s D).1.tunnels := by
  induction D with
  | nil => exact fun s j h => h
  | cons e rest ih =>
    intro s j h
    exact ih _ j (reconcileEndpoint_keys_mono dial s e j h)

theorem reconcileAll_keys_of_dial (dial : String → String → Bool) (D : List Endpoint)
    (hD : ∀ e ∈ D, dial e.TunnelID e.BrokerEndpoint = true) :
    ∀ (s : ManagerState) (e : Endpoint), e ∈ D →
    e.TunnelID ∈ keysA (reconcileAll dial s D).1.tunnels := by
  induction D with
  | nil =>
    intro s e he
    exact absurd he (List.not_mem_nil _)
  | cons e₁ rest ih =>
    intro s e he
    rcases List.mem_cons.mp he with rfl | he
    · exact reconcileAll_keys_mono dial rest _ _
        (reconcileEndpoint_keys_self dial s e (hD e (List.mem_cons_self _ _)))
    · exact ih (fun e₂ he₂ => hD e₂ (List.mem_cons_of_mem _ he₂)) _ e he

theorem clients_inj (l : List (String × tunnel))
    (hnd : (l.map (fun p => p.2.Client)).Nodup) (p q : String × tunnel)
    (hp : p ∈ l) (hq : q ∈ l) (hc : p.2.Client = q.2.Client) : p = q :=
  List.inj_on_of_nodup_map hnd hp hq hc

theorem reconcileEndpoint_frame_other (dial : String → String → Bool) (s : ManagerState)
    (e : Endpoint) (k : String) (u : tunnel) (hW : WF s) (hne : e.TunnelID ≠ k)
    (hu : alookup s.tunnels k = some u) :
    alookup (reconcileEndpoint dial s e).1.tunnels k = some u ∧
    ∀ ev ∈ (reconcileEndpoint dial s e).2,
      ev ≠ Event.closeSession u.Client ∧ ∀ b sid, ev ≠ Event.connect k b sid := by
  refine ⟨(reconcileEndpoint_alookup_other dial s e k hne).trans hu, ?_⟩
  rcases hl : alookup s.tunnels e.TunnelID with _ | t
  · by_cases hd : dial e.TunnelID e.BrokerEndpoint = true
    · simp only [reconcileEndpoint, hl, hd, if_pos]
      intro ev hev
      simp only [List.mem_singleton] at hev
      subst hev
      refine ⟨by simp, ?_⟩
      intro b sid hc
      injection hc with hc
      exact hne hc
    · simp only [reconcileEndpoint, hl, if_neg hd]
      intro ev hev
      exact absurd hev (List.not_mem_nil _)
  · by_cases hbe : t.BrokerEndpoint = e.BrokerEndpoint
    · simp only [reconcileEndpoint, hl, hbe, if_pos]
      intro ev hev
      exact absurd hev (List.not_mem_nil _)
    · by_cases hd : dial e.TunnelID e.BrokerEndpoint = true
      · simp only [reconcileEndpoint, hl, if_neg hbe, hd, if_pos]
        intro ev hev
        rcases List.mem_cons.mp hev with rfl | hev
        · refine ⟨by simp, ?_⟩
          intro b sid hc
          injection hc with hc
          exact hne hc
        · simp only [List.mem_singleton] at hev
          subst hev
          refine ⟨?_, by intro b sid hc; exact Event.noConfusion hc⟩
          intro hc
          injection hc with hc
          have := clients_inj s.tunnels hW.2.1 (e.TunnelID, t) (k, u)
            (alookup_mem _ _ _ hl) (alookup_mem _ _ _ hu) hc
          injection this with h₁ h₂
          exact hne h₁
      · simp only [reconcileEndpoint, hl, if_neg hbe, if_neg hd]
        intro ev hev
        exact absurd hev (List.not_mem_nil _)

theorem reconcileAll_frame_other (dial : String → String → Bool) (L : List Endpoint) :
    ∀ (s : ManagerState) (k : String) (u : tunnel), WF s →
    (∀ e ∈ L, e.TunnelID ≠ k) → alookup s.tunnels k = some u →
    alookup (reconcileAll dial s L).1.tunnels k = some u ∧
    ∀ ev ∈ (reconcileAll dial s L).2,
      ev ≠ Event.closeSession u.Client ∧ ∀ b sid, ev ≠ Event.connect k b sid := by
  induction L with
  | nil =>
    intro s k u _ _ hu
    exact ⟨hu, fun ev hev => absurd hev (List.not_mem_nil _)⟩
  | cons e rest ih =>
    intro s k u hW hne hu
    have hstep := reconcileEndpoint_frame_other dial s e k u hW
      (hne e (List.mem_cons_self _ _)) hu
    have hW₁ := reconcileEndpoint_WF dial s e hW
    have hrest := ih (reconcileEndpoint dial s e).1 k u hW₁
      (fun e₁ he₁ => hne e₁ (List.mem_cons_of_mem _ he₁)) hstep.1
    refine ⟨hrest.1, ?_⟩
    intro ev hev
    rcases List.mem_append.mp hev with hev | hev
    · exact hstep.2 ev hev
    · exact hrest.2 ev hev

theorem reconcileAll_inplace (dial : String → String → Bool) (D : List Endpoint) :
    ∀ (s : ManagerState) (e : Endpoint) (t : tunnel), WF s →
    (D.map Endpoint.TunnelID).Nodup → e ∈ D →
    alookup s.tunnels e.TunnelID = some t →
    t.BrokerEndpoint = e.BrokerEndpoint →
    alookup (reconcileAll dial s D).1.tunnels e.TunnelID =
      some ⟨t.BrokerEndpoint, e.ClusterEndpoint, t.Client⟩ ∧
    ∀ ev ∈ (reconcileAll dial s D).2,
      ev ≠ Event.closeSession t.Client ∧ ∀ b sid, ev ≠ Event.connect e.TunnelID b sid := by
  induction D with
  | nil =>
    intro s e t _ _ he
    exact absurd he (List.not_mem_nil _)
  | cons e₁ rest ih =>
    intro s e t hW hnd he hl hbe
    have hW₁ := reconcileEndpoint_WF dial s e₁ hW
    rcases List.mem_cons.mp he with rfl | he
    · have hstep : reconcileEndpoint dial s e =
          ({ tunnels := upsert e.TunnelID ⟨t.BrokerEndpoint, e.ClusterEndpoint, t.Client⟩
               s.tunnels, nextSession := s.nextSession }, []) := by
        simp only [reconcileEndpoint, hl, hbe, if_pos]
      have hlook : alookup (reconcileEndpoint dial s e).1.tunnels e.TunnelID =
          some ⟨t.BrokerEndpoint, e.ClusterEndpoint, t.Client⟩ := by
        rw [hstep]
        exact alookup_upsert_eq _ _ _
      have hrest₀ : ∀ e₂ ∈ rest, e₂.TunnelID ≠ e.TunnelID := by
        intro e₂ he₂ hc
        rw [List.map_cons, List.nodup_cons] at hnd
        exact hnd.1 (hc ▸ List.mem_map.mpr ⟨e₂, he₂, rfl⟩)
      have hrest := reconcileAll_frame_other dial rest (reconcileEndpoint dial s e).1
        e.TunnelID ⟨t.BrokerEndpoint, e.ClusterEndpoint, t.Client⟩ hW₁ hrest₀ hlook
      refine ⟨hrest.1, ?_⟩
      intro ev hev
      rcases List.mem_append.mp hev with hev | hev
      · rw [hstep] at hev
        exact absurd hev (List.not_mem_nil _)
      · exact hrest.2 ev hev
    · have hne : e₁.TunnelID ≠ e.TunnelID := by
        intro hc
        rw [List.map_cons, List.nodup_cons] at hnd
        exact hnd.1 (hc ▸ List.mem_map.mpr ⟨e, he, rfl⟩)
      have hstep := reconcileEndpoint_frame_other dial s e₁ e.TunnelID t hW hne hl
      have hrest := ih (reconcileEndpoint dial s e₁).1 e t hW₁
        (by rw [List.map_cons, List.nodup_cons] at hnd; exact hnd.2) he hstep.1 hbe
      refine ⟨hrest.1, ?_⟩
      intro ev hev
      rcases List.mem_append.mp hev with hev | hev
      · exact hstep.2 ev hev
      · exact hrest.2 ev hev

theorem stable_step_id (dial : String → String → Bool) (s : ManagerState) (e : Endpoint)
    (h : Stable dial s e) : reconcileEndpoint dial s e = (s, []) := by
  rcases hl : alookup s.tunnels e.TunnelID with _ | t
  · have hd : dial e.TunnelID e.BrokerEndpoint = false := by
      simpa [Stable, hl] using h
    simp only [reconcileEndpoint, hl, hd]
    simp
  · have h₁ : (t.BrokerEndpoint = e.BrokerEndpoint ∧
        t.ClusterEndpoint = e.ClusterEndpoint) ∨
        (t.BrokerEndpoint ≠ e.BrokerEndpoint ∧
         dial e.TunnelID e.BrokerEndpoint = false) := by
      simpa [Stable, hl] using h
    rcases h₁ with ⟨hb, hc⟩ | ⟨hb, hd⟩
    · simp only [reconcileEndpoint, hl]
      rw [if_pos hb]
      have hv : ({ t with ClusterEndpoint := e.ClusterEndpoint } : tunnel) = t := by
        rw [← hc]
      rw [hv, upsert_self _ _ _ hl]
    · simp only [reconcileEndpoint, hl, if_neg hb, hd]
      simp

theorem step_self_stable (dial : String → String → Bool) (s : ManagerState)
    (e : Endpoint) : Stable dial (reconcileEndpoint dial s e).1 e := by
  rcases hl : alookup s.tunnels e.TunnelID with _ | t
  · by_cases hd : dial e.TunnelID e.BrokerEndpoint = true
    · simp only [reconcileEndpoint, hl, hd, if_pos]
      simp [Stable, alookup_upsert_eq]
    · simp only [reconcileEndpoint, hl, if_neg hd]
      simp only [Stable, hl]
      exact Bool.eq_false_iff.mpr hd
  · by_cases hbe : t.BrokerEndpoint = e.BrokerEndpoint
    · simp only [reconcileEndpoint, hl, hbe, if_pos]
      simp [Stable, alookup_upsert_eq, hbe]
    · by_cases hd : dial e.TunnelID e.BrokerEndpoint = true
      · simp only [reconcileEndpoint, hl, if_neg hbe, hd, if_pos]
        simp [Stable, alookup_upsert_eq]
      · simp only [reconcileEndpoint, hl, if_neg hbe, if_neg hd]
        simp only [Stable, hl]
        exact Or.inr ⟨hbe, Bool.eq_false_iff.mpr hd⟩

theorem stable_congr (dial : String → String → Bool) (s₁ s₂ : ManagerState)
    (e : Endpoint) (h : alookup s₁.tunnels e.TunnelID = alookup s₂.tunnels e.TunnelID) :
    Stable dial s₁ e ↔ Stable dial s₂ e := by
  unfold Stable
  rw [h]

theorem reconcileAll_stable (dial : String → String → Bool) (D : List Endpoint) :
    ∀ s : ManagerState, (D.map Endpoint.TunnelID).Nodup →
    ∀ e ∈ D, Stable dial (reconcileAll dial s D).1 e := by
  induction D with
  | nil =>
    intro s _ e he
    exact absurd he (List.not_mem_nil _)
  | cons e₁ rest ih =>
    intro s hnd e he
    rw [List.map_cons, List.nodup_cons] at hnd
    rcases List.mem_cons.mp he with rfl | he
    · have hrest₀ : ∀ e₂ ∈ rest, e₂.TunnelID ≠ e.TunnelID := by
        intro e₂ he₂ hc
        exact hnd.1 (hc ▸ List.mem_map.mpr ⟨e₂, he₂, rfl⟩)
      have hpres := reconcileAll_alookup_other dial rest (reconcileEndpoint dial s e).1
        e.TunnelID hrest₀
      exact (stable_congr dial _ _ e hpres).mpr (step_self_stable dial s e)
    · exact ih (reconcileEndpoint dial s e₁).1 hnd.2 e he

theorem updateTunnels_stable (dial : String → String → Bool) (s : ManagerState)
    (D : List Endpoint) (hnd : (D.map Endpoint.TunnelID).Nodup) :
    ∀ e ∈ D, Stable dial (updateTunnels dial s D).1 e := by
  intro e he
  have hmem : memID (D.map Endpoint.TunnelID) e.TunnelID = true :=
    (memID_iff _ _).mpr (List.mem_map.mpr ⟨e, he, rfl⟩)
  have hpres : alookup (updateTunnels dial s D).1.tunnels e.TunnelID =
      alookup (reconcileAll dial s D).1.tunnels e.TunnelID :=
    alookup_filter _ _ _ hmem
  exact (stable_congr dial _ _ e hpres).mpr (reconcileAll_stable dial D s hnd e he)

theorem reconcileAll_id_of_stable (dial : String → String → Bool) (D : List Endpoint) :
    ∀ s : ManagerState, (∀ e ∈ D, Stable dial s e) → reconcileAll dial s D = (s, []) := by
  induction D with
  | nil => exact fun s _ => rfl
  | cons e rest ih =>
    intro s hst
    have hstep := stable_step_id dial s e (hst e (List.mem_cons_self _ _))
    have hrest := ih s (fun e₁ he₁ => hst e₁ (List.mem_cons_of_mem _ he₁))
    show ((reconcileAll dial (reconcileEndpoint dial s e).1 rest).1,
      (reconcileEndpoint dial s e).2 ++ (reconcileAll dial (reconcileEndpoint dial s e).1 rest).2) = (s, [])
    rw [hstep]
    simp [hrest]

theorem updateTunnels_keys_sub (dial : String → String → Bool) (s : ManagerState)
    (D : List Endpoint) :
    ∀ p ∈ (updateTunnels dial s D).1.tunnels, memID (D.map Endpoint.TunnelID) p.1 = true := by
  intro p hp
  have hp₂ : p ∈ (reconcileAll dial s D).1.tunnels.filter
      (fun q => memID (D.map Endpoint.TunnelID) q.1) := hp
  exact (List.mem_filter.mp hp₂).2

theorem mem_keys_updateTunnels (dial : String → String → Bool) (s : ManagerState)
    (D : List Endpoint) (k : String) :
    k ∈ keysA (updateTunnels dial s D).1.tunnels ↔
      k ∈ keysA (reconcileAll dial s D).1.tunnels ∧ k ∈ D.map Endpoint.TunnelID := by
  rw [show (updateTunnels dial s D).1.tunnels =
    (reconcileAll dial s D).1.tunnels.filter
      (fun p => memID (D.map Endpoint.TunnelID) p.1) from rfl]
  rw [mem_keys_filter, memID_iff]

theorem reconcileAll_dial_false (dial : String → String → Bool) (D : List Endpoint) :
    ∀ (s : ManagerState) (e : Endpoint) (t : tunnel),
    (D.map Endpoint.TunnelID).Nodup → e ∈ D →
    dial e.TunnelID e.BrokerEndpoint = false →
    alookup s.tunnels e.TunnelID = some t →
    t.BrokerEndpoint ≠ e.BrokerEndpoint →
    alookup (reconcileAll dial s D).1.tunnels e.TunnelID = some t := by
  induction D with
  | nil =>
    intro s e t _ he
    exact absurd he (List.not_mem_nil _)
  | cons e₁ rest ih =>
    intro s e t hnd he hd hl hbne
    rw [List.map_cons, List.nodup_cons] at hnd
    rcases List.mem_cons.mp he with rfl | he
    · have hd₂ : ¬ dial e.TunnelID e.BrokerEndpoint = true := by simp [hd]
      have hstep : reconcileEndpoint dial s e = (s, []) := by
        simp only [reconcileEndpoint, hl, if_neg hbne, if_neg hd₂]
      have hrest₀ : ∀ e₂ ∈ rest, e₂.TunnelID ≠ e.TunnelID := by
        intro e₂ he₂ hc
        exact hnd.1 (hc ▸ List.mem_map.mpr ⟨e₂, he₂, rfl⟩)
      have hpres := reconcileAll_alookup_other dial rest (reconcileEndpoint dial s e).1
        e.TunnelID hrest₀
      show alookup (reconcileAll dial (reconcileEndpoint dial s e).1 rest).1.tunnels
        e.TunnelID = some t
      rw [hpres, hstep]
      exact hl
    · have hne : e₁.TunnelID ≠ e.TunnelID := by
        intro hc
        exact hnd.1 (hc ▸ List.mem_map.mpr ⟨e, he, rfl⟩)
      have hpres := reconcileEndpoint_alookup_other dial s e₁ e.TunnelID hne
      exact ih (reconcileEndpoint dial s e₁).1 e t hnd.2 he hd (hpres.trans hl) hbne

theorem closeN_closed : ∀ (n : Nat) (l : closeAwareListener), l.closed = true →
    closeN n l = (l, List.replicate n true) := by
  intro n
  induction n with
  | zero =>
    intro l _
    rfl
  | succ m ih =>
    intro l h
    have hc : closeAwareClose l = (l, true) := by
      simp [closeAwareClose, h]
    show ((closeN m (closeAwareClose l).1).1,
      (closeAwareClose l).2 :: (closeN m (closeAwareClose l).1).2) = _
    rw [hc, ih l h, List.replicate_succ]

/-- C1, counterexample: as stated, the key-set invariant is claimed for
every pass, but a pass in which the connector's dial fails for a fresh
tunnel ID ends with that ID missing from the map: with an always-failing
dial, the desired ID "t1" is in the desired list yet absent from the map
after the pass. -/
theorem claim1_counterexample :
    "t1" ∈ ([⟨"t1", "ws://b", ":p"⟩] : List Endpoint).map Endpoint.TunnelID ∧
    "t1" ∉ keysA (updateTunnels dialNever NewManager
      [⟨"t1", "ws://b", ":p"⟩]).1.tunnels := by
  decide

/-- C1, amended: at the end of the reconciliation pass that observed the
desired list `D`, every tunnel ID absent from `D` has been removed —
unconditionally, whatever the dial outcomes of the pass were; and when
every dial the pass attempts succeeds, every ID present in `D` also has
an entry, so the key set is exactly the set of tunnel IDs of `D`. -/
theorem claim1_key_correspondence (dial : String → String → Bool) (s : ManagerState)
    (D : List Endpoint) :
    (∀ k, k ∈ keysA (updateTunnels dial s D).1.tunnels →
       k ∈ D.map Endpoint.TunnelID) ∧
    ((∀ e ∈ D, dial e.TunnelID e.BrokerEndpoint = true) → ∀ k,
       k ∈ keysA (updateTunnels dial s D).1.tunnels ↔ k ∈ D.map Endpoint.TunnelID) := by
  constructor
  · intro k hk
    exact ((mem_keys_updateTunnels dial s D k).mp hk).2
  · intro hdial k
    rw [mem_keys_updateTunnels]
    constructor
    · exact And.right
    · intro hk
      refine ⟨?_, hk⟩
      rcases List.mem_map.mp hk with ⟨e, he, rfl⟩
      exact reconcileAll_keys_of_dial dial D hdial s e he

/-- Witness for C1: in a pass where every dial fails, the stale key
"unused-tunnel" is nonetheless removed; and with an always-succeeding
dial, key membership coincides with the desired IDs. -/
theorem claim1_key_correspondence_witness :
    "unused-tunnel" ∉ keysA (updateTunnels dialNever scenarioAInit
      scenarioADesired).1.tunnels ∧
    ("current-tunnel" ∈ keysA (updateTunnels dialAlways scenarioAInit
        scenarioADesired).1.tunnels ↔
      "current-tunnel" ∈ scenarioADesired.map Endpoint.TunnelID) :=
  ⟨fun hk => absurd ((claim1_key_correspondence dialNever scenarioAInit
      scenarioADesired).1 "unused-tunnel" hk) (by decide),
   (claim1_key_correspondence dialAlways scenarioAInit scenarioADesired).2
     (by decide) "current-tunnel"⟩

/-- C2: over any sequence of at least one `Close` call on a freshly
wrapped session, the wrapper ends up closed, the underlying session has
been released exactly once, and every caller observed success. -/
theorem claim2_close_idempotent (n : Nat) (h : 1 ≤ n) :
    (closeN n newCloseAware).1.underlyingCloses = 1 ∧
    (closeN n newCloseAware).1.closed = true ∧
    ∀ b ∈ (closeN n newCloseAware).2, b = true := by
  obtain ⟨m, rfl⟩ : ∃ m, n = m + 1 := ⟨n - 1, by omega⟩
  have hall : closeN (m + 1) newCloseAware =
      (⟨true, 1⟩, true :: List.replicate m true) := by
    show ((closeN m (closeAwareClose newCloseAware).1).1,
      (closeAwareClose newCloseAware).2 :: (closeN m (closeAwareClose newCloseAware).1).2) = _
    rw [show closeAwareClose newCloseAware =
      ((⟨true, 1⟩ : closeAwareListener), true) from rfl]
    rw [closeN_closed m ⟨true, 1⟩ rfl]
  rw [hall]
  refine ⟨rfl, rfl, ?_⟩
  intro b hb
  rcases List.mem_cons.mp hb with rfl | hb
  · rfl
  · exact List.eq_of_mem_replicate hb

/-- Witness for C2: three `Close` calls on a fresh wrapper. -/
theorem claim2_close_idempotent_witness :
    (closeN 3 newCloseAware).1.underlyingCloses = 1 ∧
    (closeN 3 newCloseAware).1.closed = true ∧
    ∀ b ∈ (closeN 3 newCloseAware).2, b = true :=
  claim2_close_idempotent 3 (by decide)

/-- C3: a failed poll leaves the run loop's state exactly as it was, and
the loop goes on to process the remaining cycles unchanged (the failed
cycle is retried in the sense that nothing was consumed or mutated); a
failed dial for a desired endpoint leaves the existing entry for that
tunnel ID untouched through the whole reconciliation pass. -/
theorem claim3_failure_semantics :
    (∀ (dial : String → String → Bool) (s : ManagerState) (m : String) (ps : List Poll),
       runCycles dial s (Poll.failure m :: ps) = runCycles dial s ps) ∧
    (∀ (dial : String → String → Bool) (s : ManagerState) (D : List Endpoint)
       (e : Endpoint) (t : tunnel), (D.map Endpoint.TunnelID).Nodup → e ∈ D →
       dial e.TunnelID e.BrokerEndpoint = false →
       alookup s.tunnels e.TunnelID = some t →
       t.BrokerEndpoint ≠ e.BrokerEndpoint →
       alookup (updateTunnels dial s D).1.tunnels e.TunnelID = some t) := by
  constructor
  · intro dial s m ps
    show ((runCycles dial (runCycle dial s (Poll.failure m)).1 ps).1,
      (runCycle dial s (Poll.failure m)).2 ++
        (runCycles dial (runCycle dial s (Poll.failure m)).1 ps).2) = _
    rw [show runCycle dial s (Poll.failure m) = (s, []) from rfl]
    simp
  · intro dial s D e t hnd he hd hl hbne
    have hmem : memID (D.map Endpoint.TunnelID) e.TunnelID = true :=
      (memID_iff _ _).mpr (List.mem_map.mpr ⟨e, he, rfl⟩)
    have hph := reconcileAll_dial_false dial D s e t hnd he hd hl hbne
    exact (alookup_filter _ _ _ hmem).trans hph

/-- Witness for C3: a failed poll on the empty manager, and a failed dial
for the broker-changed endpoint of a stale entry. -/
theorem claim3_failure_semantics_witness :
    runCycles dialNever NewManager [Poll.failure "boom"] =
      runCycles dialNever NewManager [] ∧
    alookup (updateTunnels dialNever scenarioAInit
      [⟨"current-tunnel-new-broker", "ws://new", ":p"⟩]).1.tunnels
      "current-tunnel-new-broker" = some (staleTunnel 0) :=
  ⟨claim3_failure_semantics.1 dialNever NewManager "boom" [],
   claim3_failure_semantics.2 dialNever scenarioAInit
     [⟨"current-tunnel-new-broker", "ws://new", ":p"⟩]
     ⟨"current-tunnel-new-broker", "ws://new", ":p"⟩ (staleTunnel 0)
     (by decide) (by decide) (by decide) (by decide) (by decide)⟩

/-- C4: Scenario A — starting from the two stale entries, one
reconciliation pass against the three-endpoint desired list leaves the
map with exactly the keys "current-tunnel", "new-tunnel",
"stable-tunnel", each entry holding the matching broker and cluster
endpoint, while the sessions of the two stale entries are closed and
their entries removed. -/
theorem claim4_scenarioA :
    (updateTunnels dialAlways scenarioAInit scenarioADesired).1.tunnels =
      [("current-tunnel", ⟨"ws://brokerA", ":P", 2⟩),
       ("new-tunnel", ⟨"ws://brokerB", ":P", 3⟩),
       ("stable-tunnel", ⟨"ws://brokerC", ":P", 4⟩)] ∧
    Event.closeSession 0 ∈ (updateTunnels dialAlways scenarioAInit scenarioADesired).2 ∧
    Event.closeSession 1 ∈ (updateTunnels dialAlways scenarioAInit scenarioADesired).2 := by
  decide

/-- C5: cancelling the context passed to `Run` makes it close every
owned tunnel's session and return; afterwards the Manager's tunnel map
is empty, and every tunnel owned at the moment of cancellation had a
close emitted for its session. -/
theorem claim5_run_cancellation (dial : String → String → Bool) (s : ManagerState)
    (polls : List Poll) :
    (run dial s polls).1.tunnels = [] ∧
    ∀ p ∈ (runCycles dial s polls).1.tunnels,
      Event.closeSession p.2.Client ∈ (run dial s polls).2 := by
  refine ⟨rfl, ?_⟩
  intro p hp
  show Event.closeSession p.2.Client ∈
    (runCycles dial s polls).2 ++ (shutdown (runCycles dial s polls).1).2
  refine List.mem_append.mpr (Or.inr ?_)
  exact List.mem_map.mpr ⟨p, hp, rfl⟩

/-- Witness for C5: Scenario B — running Scenario A's cycle and then
cancelling empties the map and closes the three remaining sessions. -/
theorem claim5_run_cancellation_witness :
    (run dialAlways scenarioAInit [Poll.success scenarioADesired]).1.tunnels = [] ∧
    Event.closeSession 2 ∈ (run dialAlways scenarioAInit
      [Poll.success scenarioADesired]).2 ∧
    Event.closeSession 3 ∈ (run dialAlways scenarioAInit
      [Poll.success scenarioADesired]).2 ∧
    Event.closeSession 4 ∈ (run dialAlways scenarioAInit
      [Poll.success scenarioADesired]).2 :=
  ⟨(claim5_run_cancellation dialAlways scenarioAInit [Poll.success scenarioADesired]).1,
   (claim5_run_cancellation dialAlways scenarioAInit [Poll.success scenarioADesired]).2
     ("current-tunnel", ⟨"ws://brokerA", ":P", 2⟩) (by decide),
   (claim5_run_cancellation dialAlways scenarioAInit [Poll.success scenarioADesired]).2
     ("new-tunnel", ⟨"ws://brokerB", ":P", 3⟩) (by decide),
   (claim5_run_cancellation dialAlways scenarioAInit [Poll.success scenarioADesired]).2
     ("stable-tunnel", ⟨"ws://brokerC", ":P", 4⟩) (by decide)⟩

/-- C6: Scenario C — against an echoing target, once the dial succeeds
`proxy` returns no error exactly when both copy directions end in clean
EOF, and on such a clean run the bytes written on the stream are read
back unchanged. -/
theorem claim6_proxy_echo (w : ProxyWorld) (streamIn : List Nat) (hd : w.dialOk = true) :
    ((proxy w id streamIn).err = none ↔ w.upErr = none ∧ w.downErr = none) ∧
    (w.upErr = none → w.downErr = none → (proxy w id streamIn).sentBack = streamIn) := by
  constructor
  · cases hu : w.upErr with
    | some e => simp [proxy, hd, firstErr, hu]
    | none => simp [proxy, hd, firstErr, hu]
  · intro hu hv
    simp [proxy, hd, hu, hv]

/-- Witness for C6: "hello" echoes back through a clean proxy run. -/
theorem claim6_proxy_echo_witness :
    ((proxy ⟨true, "", none, none⟩ id helloBytes).err = none ↔
      (⟨true, "", none, none⟩ : ProxyWorld).upErr = none ∧
      (⟨true, "", none, none⟩ : ProxyWorld).downErr = none) ∧
    (proxy ⟨true, "", none, none⟩ id helloBytes).sentBack = helloBytes :=
  ⟨(claim6_proxy_echo ⟨true, "", none, none⟩ helloBytes rfl).1,
   (claim6_proxy_echo ⟨true, "", none, none⟩ helloBytes rfl).2 rfl rfl⟩

/-- C7: Scenario D — when dialing the target fails, `proxy` returns a
non-nil error without having read from or written to the stream, and
every copy worker it started has been joined (none in this case), so no
background work outlives the call. -/
theorem claim7_proxy_dial_failure (w : ProxyWorld) (target : List Nat → List Nat)
    (streamIn : List Nat) (hd : w.dialOk = false) :
    (proxy w target streamIn).err.isSome = true ∧
    (proxy w target streamIn).streamTouched = false ∧
    (proxy w target streamIn).spawned = (proxy w target streamIn).joined := by
  simp [proxy, hd]

/-- Witness for C7: a proxy call against an unreachable target. -/
theorem claim7_proxy_dial_failure_witness :
    (proxy ⟨false, "connection refused", none, none⟩ id helloBytes).err.isSome = true ∧
    (proxy ⟨false, "connection refused", none, none⟩ id helloBytes).streamTouched = false ∧
    (proxy ⟨false, "connection refused", none, none⟩ id helloBytes).spawned =
      (proxy ⟨false, "connection refused", none, none⟩ id helloBytes).joined :=
  claim7_proxy_dial_failure ⟨false, "connection refused", none, none⟩ id helloBytes rfl

/-- C8: for a desired endpoint whose tunnel ID already has an entry with
the same stored broker endpoint, the reconciliation pass updates only the
stored cluster endpoint: the broker endpoint and session are kept, the
session is never closed, and no fresh connection is opened for that
tunnel ID. -/
theorem claim8_update_without_reconnect (dial : String → String → Bool)
    (s : ManagerState) (D : List Endpoint) (e : Endpoint) (t : tunnel) (hW : WF s)
    (hnd : (D.map Endpoint.TunnelID).Nodup) (he : e ∈ D)
    (hl : alookup s.tunnels e.TunnelID = some t)
    (hbe : t.BrokerEndpoint = e.BrokerEndpoint) :
    alookup (updateTunnels dial s D).1.tunnels e.TunnelID =
      some ⟨t.BrokerEndpoint, e.ClusterEndpoint, t.Client⟩ ∧
    ∀ ev ∈ (updateTunnels dial s D).2,
      ev ≠ Event.closeSession t.Client ∧ ∀ b sid, ev ≠ Event.connect e.TunnelID b sid := by
  have hph := reconcileAll_inplace dial D s e t hW hnd he hl hbe
  have hWph := reconcileAll_WF dial D s hW
  have hmem : memID (D.map Endpoint.TunnelID) e.TunnelID = true :=
    (memID_iff _ _).mpr (List.mem_map.mpr ⟨e, he, rfl⟩)
  constructor
  · exact (alookup_filter _ _ _ hmem).trans hph.1
  · intro ev hev
    rcases List.mem_append.mp hev with hev | hev
    · exact hph.2 ev hev
    · rcases List.mem_map.mp hev with ⟨q, hq, rfl⟩
      have hq₂ : q ∈ (reconcileAll dial s D).1.tunnels ∧
          (!memID (D.map Endpoint.TunnelID) q.1) = true := List.mem_filter.mp hq
      refine ⟨?_, by intro b sid hc; exact Event.noConfusion hc⟩
      intro hc
      injection hc with hc
      have hentry : (e.TunnelID,
          (⟨t.BrokerEndpoint, e.ClusterEndpoint, t.Client⟩ : tunnel)) ∈
          (reconcileAll dial s D).1.tunnels := alookup_mem _ _ _ hph.1
      have heq := clients_inj (reconcileAll dial s D).1.tunnels hWph.2.1 q
        (e.TunnelID, ⟨t.BrokerEndpoint, e.ClusterEndpoint, t.Client⟩) hq₂.1 hentry hc
      have hq1 : q.1 = e.TunnelID := congrArg Prod.fst heq
      have hfalse : memID (D.map Endpoint.TunnelID) q.1 = false := by
        simpa using hq₂.2
      rw [hq1, hmem] at hfalse
      exact Bool.noConfusion hfalse

/-- Witness for C8: with a live "stable-tunnel" whose broker matches the
desired endpoint, Scenario A's pass keeps its session (0) and only
updates the cluster endpoint; no close of session 0 is ever emitted. -/
theorem claim8_update_without_reconnect_witness :
    alookup (updateTunnels dialAlways frameInit scenarioADesired).1.tunnels
      "stable-tunnel" = some ⟨"ws://brokerC", ":P", 0⟩ ∧
    Event.closeSession 0 ∉ (updateTunnels dialAlways frameInit scenarioADesired).2 :=
  ⟨(claim8_update_without_reconnect dialAlways frameInit scenarioADesired
      ⟨"stable-tunnel", "ws://brokerC", ":P"⟩ ⟨"ws://brokerC", ":old", 0⟩
      (by unfold WF; decide) (by decide) (by decide) (by decide) (by decide)).1,
   fun hev => ((claim8_update_without_reconnect dialAlways frameInit scenarioADesired
      ⟨"stable-tunnel", "ws://brokerC", ":P"⟩ ⟨"ws://brokerC", ":old", 0⟩
      (by unfold WF; decide) (by decide) (by decide) (by decide) (by decide)).2
      (Event.closeSession 0) hev).1 rfl⟩

/-- C9: reconciling a second time against an unchanged desired set (with
distinct tunnel IDs, as the control plane supplies them) performs no
connect and no close and leaves the map exactly as the first pass left
it. -/
theorem claim9_reconcile_idempotent (dial : String → String → Bool) (s : ManagerState)
    (D : List Endpoint) (hnd : (D.map Endpoint.TunnelID).Nodup) :
    updateTunnels dial (updateTunnels dial s D).1 D = ((updateTunnels dial s D).1, []) := by
  have hst := updateTunnels_stable dial s D hnd
  have hph : reconcileAll dial (updateTunnels dial s D).1 D =
      ((updateTunnels dial s D).1, []) :=
    reconcileAll_id_of_stable dial D _ hst
  have hall : ∀ p ∈ (updateTunnels dial s D).1.tunnels,
      memID (D.map Endpoint.TunnelID) p.1 = true := updateTunnels_keys_sub dial s D
  have hfe : (updateTunnels dial s D).1.tunnels.filter
      (fun p => memID (D.map Endpoint.TunnelID) p.1) =
      (updateTunnels dial s D).1.tunnels :=
    List.filter_eq_self.mpr hall
  have hfn : (updateTunnels dial s D).1.tunnels.filter
      (fun p => !memID (D.map Endpoint.TunnelID) p.1) = [] := by
    rw [List.filter_eq_nil_iff]
    intro p hp
    simp [hall p hp]
  have hfin : updateTunnels dial (updateTunnels dial s D).1 D =
      (({ tunnels := (reconcileAll dial (updateTunnels dial s D).1 D).1.tunnels.filter
            (fun p => memID (D.map Endpoint.TunnelID) p.1),
          nextSession :=
            (reconcileAll dial (updateTunnels dial s D).1 D).1.nextSession } : ManagerState),
        (reconcileAll dial (updateTunnels dial s D).1 D).2 ++
          ((reconcileAll dial (updateTunnels dial s D).1 D).1.tunnels.filter
            (fun p => !memID (D.map Endpoint.TunnelID) p.1)).map
            (fun p => Event.closeSession p.2.Client)) := rfl
  rw [hfin, hph]
  simp [hfe, hfn]

/-- Witness for C9: the second pass over Scenario A's desired set changes
nothing and emits nothing. -/
theorem claim9_reconcile_idempotent_witness :
    updateTunnels dialAlways (updateTunnels dialAlways scenarioAInit
      scenarioADesired).1 scenarioADesired =
      ((updateTunnels dialAlways scenarioAInit scenarioADesired).1, []) :=
  claim9_reconcile_idempotent dialAlways scenarioAInit scenarioADesired (by decide)

end Tunnel

namespace BasicAuth

/-- C10: `ServeHTTP` replies with the authentication challenge exactly
when the request carries no valid credentials — absent or malformed
header, unknown user, or failing secret check; with valid credentials it
replies 200 with the handler's headers; an unknown user's secret lookup
yields the empty string, so that case is rejected identically to a wrong
password. -/
theorem claim10_basicauth (h : Handler) (check : String → String → Bool)
    (creds : Option (String × String)) :
    (ServeHTTP h check creds = HTTPReply.challenge ↔ ¬ ValidCreds h check creds) ∧
    (∀ u p, creds = some (u, p) → secretBasic h u ≠ "" →
       check p (secretBasic h u) = true →
       ServeHTTP h check creds = HTTPReply.ok200 (okHeaders h u)) ∧
    (∀ u p, Tunnel.alookup h.users u = none →
       secretBasic h u = "" ∧ ServeHTTP h check (some (u, p)) = HTTPReply.challenge) := by
  have hunknown : ∀ u, Tunnel.alookup h.users u = none → secretBasic h u = "" := by
    intro u hu
    simp [secretBasic, hu]
  refine ⟨?_, ?_, ?_⟩
  · cases creds with
    | none =>
      constructor
      · intro hch
        rintro ⟨u, p, hc, -, -⟩
        exact Option.noConfusion hc
      · intro hnv
        rfl
    | some up =>
      obtain ⟨u₀, p₀⟩ := up
      by_cases hcond : secretBasic h u₀ = "" ∨ ¬ check p₀ (secretBasic h u₀) = true
      · constructor
        · intro hch
          rintro ⟨u, p, hc, hne, hchk⟩
          injection hc with hc
          injection hc with hc₁ hc₂
          subst hc₁
          subst hc₂
          rcases hcond with hcond | hcond
          · exact hne hcond
          · exact hcond hchk
        · intro hnv
          simp only [ServeHTTP]
          rw [if_pos hcond]
      · constructor
        · intro hch
          rw [show ServeHTTP h check (some (u₀, p₀)) =
            HTTPReply.ok200 (okHeaders h u₀) from by
              simp only [ServeHTTP]; rw [if_neg hcond]] at hch
          exact HTTPReply.noConfusion hch
        · intro hnv
          push_neg at hcond
          exact absurd ⟨u₀, p₀, rfl, hcond.1, hcond.2⟩ hnv
  · intro u p hc hne hchk
    subst hc
    simp only [ServeHTTP]
    rw [if_neg]
    rintro (hx | hx)
    · exact hne hx
    · exact hx hchk
  · intro u p hu
    refine ⟨hunknown u hu, ?_⟩
    simp only [ServeHTTP]
    rw [if_pos (Or.inl (hunknown u hu))]

/-- Witness for C10: the sample handler accepts its configured user with
the right password, challenges a credential-less request, and treats an
unknown user exactly like a wrong password (empty looked-up secret,
challenge reply). -/
theorem claim10_basicauth_witness :
    ServeHTTP sampleHandler plainCheck (some ("admin", "s3cr3t")) =
      HTTPReply.ok200 (okHeaders sampleHandler "admin") ∧
    ServeHTTP sampleHandler plainCheck none = HTTPReply.challenge ∧
    secretBasic sampleHandler "nobody" = "" ∧
    ServeHTTP sampleHandler plainCheck (some ("nobody", "s3cr3t")) = HTTPReply.challenge :=
  ⟨(claim10_basicauth sampleHandler plainCheck (some ("admin", "s3cr3t"))).2.1
      "admin" "s3cr3t" rfl (by decide) (by decide),
   (claim10_basicauth sampleHandler plainCheck none).1.mpr
     (fun hv => match hv with
      | ⟨u, p, hc, _, _⟩ => Option.noConfusion hc),
   ((claim10_basicauth sampleHandler plainCheck (some ("nobody", "s3cr3t"))).2.2
      "nobody" "s3cr3t" (by decide)).1,
   ((claim10_basicauth sampleHandler plainCheck (some ("nobody", "s3cr3t"))).2.2
      "nobody" "s3cr3t" (by decide)).2⟩

end BasicAuth
